import Mathlib

/-! ## Definitions: the embedded JSON codec and the oxalis runtime -/

abbrev JStr := List Char

/-- Python exception kinds raised by the code under verification. -/
inductive PyErr where
  | valueError
  | typeError
  | runtimeError
  deriving Repr, DecidableEq

/-- JSON values (the codec's textual format), numerics restricted to
integers.  `obj` keeps fields as an ordered association list, matching
Python dict insertion order. -/
inductive Json where
  | null
  | bool (b : Bool)
  | num (n : Int)
  | str (s : JStr)
  | arr (elems : List Json)
  | obj (fields : List (JStr × Json))

/-- Decimal digit accumulation: `natToDigitsGo fuel n acc` prepends the
decimal digits of `n` to `acc` (most significant first).  Structural
recursion on `fuel`; any `fuel ≥ n` is enough. -/
def natToDigitsGo : Nat → Nat → List Char → List Char
  | 0, _, acc => acc
  | fuel + 1, n, acc =>
    if n = 0 then acc
    else natToDigitsGo fuel (n / 10) (Nat.digitChar (n % 10) :: acc)

/-- Decimal representation of a natural number, as produced by Python
`repr` on a non-negative int. -/
def natToDigits (n : Nat) : List Char :=
  if n = 0 then ['0'] else natToDigitsGo n n []

/-- Decimal representation of an integer, as produced by Python `repr`
(used by `json.dumps` for int values). -/
def intToDigits (n : Int) : List Char :=
  if n < 0 then '-' :: natToDigits n.natAbs else natToDigits n.toNat

/-- JSON string escaping as applied by `json.dumps` to one character:
quote and backslash are backslash-escaped, control characters become
`\u00XX`, everything else passes through. -/
def escChar (c : Char) : List Char :=
  if c = '"' then ['\\', '"']
  else if c = '\\' then ['\\', '\\']
  else if c.toNat < 32 then
    ['\\', 'u', '0', '0', Nat.digitChar (c.toNat / 16), Nat.digitChar (c.toNat % 16)]
  else [c]

/-- Escape a whole string body (without the surrounding quotes). -/
def escStr : JStr → List Char
  | [] => []
  | c :: s => escChar c ++ escStr s

/-- A serialized JSON string literal: quotes around the escaped body. -/
def printStr (s : JStr) : List Char :=
  '"' :: (escStr s ++ ['"'])

mutual

/-- Serializer mirroring `json.dumps` with its default separators
`", "` and `": "`. -/
def printJson : Json → List Char
  | .null => "null".data
  | .bool true => "true".data
  | .bool false => "false".data
  | .num n => intToDigits n
  | .str s => printStr s
  | .arr xs => '[' :: (printList xs ++ [']'])
  | .obj fs => '{' :: (printFields fs ++ ['}'])

/-- Serialize array elements, separated by `", "`. -/
def printList : List Json → List Char
  | [] => []
  | [x] => printJson x
  | x :: y :: xs => printJson x ++ ',' :: ' ' :: printList (y :: xs)

/-- Serialize object members, `"key": value` separated by `", "`. -/
def printFields : List (JStr × Json) → List Char
  | [] => []
  | [(k, v)] => printStr k ++ ':' :: ' ' :: printJson v
  | (k, v) :: m :: fs =>
    printStr k ++ ':' :: ' ' :: printJson v ++ ',' :: ' ' :: printFields (m :: fs)

end

/-- JSON whitespace recognized by the parser. -/
def isWs (c : Char) : Bool :=
  c = ' ' || c = '\n' || c = '\t' || c = '\r'

/-- Skip leading JSON whitespace. -/
def dropWs (s : List Char) : List Char :=
  s.dropWhile isWs

/-- Value of a hexadecimal digit character. -/
def hexVal (c : Char) : Option Nat :=
  if '0' ≤ c ∧ c ≤ '9' then some (c.toNat - 48)
  else if 'a' ≤ c ∧ c ≤ 'f' then some (c.toNat - 87)
  else if 'A' ≤ c ∧ c ≤ 'F' then some (c.toNat - 55)
  else none

/-- Single-character JSON escapes accepted after a backslash. -/
def unescape1 (e : Char) : Option Char :=
  if e = '"' then some '"'
  else if e = '\\' then some '\\'
  else if e = '/' then some '/'
  else if e = 'b' then some (Char.ofNat 8)
  else if e = 'f' then some (Char.ofNat 12)
  else if e = 'n' then some '\n'
  else if e = 'r' then some '\r'
  else if e = 't' then some '\t'
  else none

mutual

/-- Parse the body of a JSON string literal after the opening quote.
Returns the decoded characters and the input remaining after the
closing quote. -/
def parseStr : List Char → Option (JStr × List Char)
  | [] => none
  | c :: r =>
    if c = '"' then some ([], r)
    else if c = '\\' then parseEsc r
    else (parseStr r).map (fun p => (c :: p.1, p.2))
termination_by s => s.length

/-- Parse what follows a backslash inside a JSON string literal. -/
def parseEsc : List Char → Option (JStr × List Char)
  | [] => none
  | e :: r1 =>
    match unescape1 e with
    | some u => (parseStr r1).map (fun p => (u :: p.1, p.2))
    | none => if e = 'u' then parseHex r1 else none
termination_by s => s.length

/-- Parse the four hex digits of a `\uXXXX` escape and the remainder
of the string literal. -/
def parseHex : List Char → Option (JStr × List Char)
  | a :: b :: c2 :: d :: r2 =>
    match hexVal a, hexVal b, hexVal c2, hexVal d with
    | some va, some vb, some vc, some vd =>
      (parseStr r2).map
        (fun p => (Char.ofNat (va * 4096 + vb * 256 + vc * 16 + vd) :: p.1, p.2))
    | _, _, _, _ => none
  | _ => none
termination_by s => s.length

end

/-- Fold decimal digit characters into a natural number. -/
def digitsToNat (ds : List Char) : Nat :=
  ds.foldl (fun a c => 10 * a + (c.toNat - 48)) 0

/-- Greedily parse a non-empty run of decimal digits. -/
def parseNatNum (s : List Char) : Option (Nat × List Char) :=
  let ds := s.takeWhile Char.isDigit
  if ds.isEmpty then none else some (digitsToNat ds, s.dropWhile Char.isDigit)

/-- Parse an (integer) JSON numeric literal: optional minus sign then
digits. -/
def parseNum (s : List Char) : Option (Json × List Char) :=
  match s with
  | [] => none
  | c :: r =>
    if c = '-' then (parseNatNum r).map (fun p => (Json.num (-(p.1 : Int)), p.2))
    else (parseNatNum (c :: r)).map (fun p => (Json.num ((p.1 : Nat) : Int), p.2))

/-- Head test on a character list. -/
def headIs (s : List Char) (d : Char) : Bool :=
  match s with
  | [] => false
  | c :: _ => c = d

mutual

/-- Fuel-indexed JSON value parser mirroring `json.loads` on the
fragment produced by `printJson`.  Returns the value and the remaining
input. -/
def parseVal : Nat → List Char → Option (Json × List Char)
  | 0, _ => none
  | fuel + 1, s0 =>
    match dropWs s0 with
    | [] => none
    | c :: r =>
      if c = 'n' then
        match r with
        | 'u' :: 'l' :: 'l' :: r1 => some (.null, r1)
        | _ => none
      else if c = 't' then
        match r with
        | 'r' :: 'u' :: 'e' :: r1 => some (.bool true, r1)
        | _ => none
      else if c = 'f' then
        match r with
        | 'a' :: 'l' :: 's' :: 'e' :: r1 => some (.bool false, r1)
        | _ => none
      else if c = '"' then
        (parseStr r).map (fun p => (.str p.1, p.2))
      else if c = '[' then
        let r1 := dropWs r
        if headIs r1 ']' then some (.arr [], r1.tail)
        else (parseElems fuel r1).map (fun p => (.arr p.1, p.2))
      else if c = '{' then
        let r1 := dropWs r
        if headIs r1 '}' then some (.obj [], r1.tail)
        else (parseMembers fuel r1).map (fun p => (.obj p.1, p.2))
      else parseNum (c :: r)

/-- Parse one or more comma-separated array elements up to and
including the closing bracket. -/
def parseElems : Nat → List Char → Option (List Json × List Char)
  | 0, _ => none
  | fuel + 1, s => do
    let (v, r) ← parseVal fuel s
    match dropWs r with
    | ',' :: r1 => (parseElems fuel r1).map (fun p => (v :: p.1, p.2))
    | ']' :: r1 => some ([v], r1)
    | _ => none

/-- Parse one or more comma-separated object members up to and
including the closing brace. -/
def parseMembers : Nat → List Char → Option (List (JStr × Json) × List Char)
  | 0, _ => none
  | fuel + 1, s =>
    match dropWs s with
    | '"' :: r => do
      let (k, r1) ← parseStr r
      match dropWs r1 with
      | ':' :: r2 => do
        let (v, r3) ← parseVal fuel r2
        match dropWs r3 with
        | ',' :: r4 => (parseMembers fuel r4).map (fun p => ((k, v) :: p.1, p.2))
        | '}' :: r4 => some ([(k, v)], r4)
        | _ => none
      | _ => none
    | _ => none

end

/-- `json.loads`: parse a complete document, requiring only trailing
whitespace after the value. -/
def loads (s : List Char) : Option Json :=
  match parseVal (s.length + 1) s with
  | some (v, rest) => if dropWs rest = [] then some v else none
  | none => none

/-- After a serialized value, the remaining input is empty or starts
with one of the three closing tokens; this is what stops the greedy
number scanner. -/
def delim (s : List Char) : Bool :=
  match s with
  | [] => true
  | c :: _ => c = ',' || c = ']' || c = '}'

mutual

/-- Fuel needed by `parseVal` to parse a serialized value. -/
def jsize : Json → Nat
  | .null => 1
  | .bool _ => 1
  | .num _ => 1
  | .str _ => 1
  | .arr xs => 1 + jsizeL xs
  | .obj fs => 1 + jsizeM fs

/-- Fuel needed by `parseElems` on serialized array elements. -/
def jsizeL : List Json → Nat
  | [] => 0
  | x :: xs => 1 + jsize x + jsizeL xs

/-- Fuel needed by `parseMembers` on serialized object members. -/
def jsizeM : List (JStr × Json) → Nat
  | [] => 0
  | (_, v) :: fs => 1 + jsize v + jsizeM fs

end

/-- base.py `TaskCodec.encode`: serialize the `[name, args, kwargs]`
triple with `json.dumps`. -/
def TaskCodec.encode (name : JStr) (args : List Json) (kwargs : List (JStr × Json)) :
    List Char :=
  printJson (Json.arr [Json.str name, Json.arr args, Json.obj kwargs])

/-- base.py `TaskCodec.decode`: `json.loads(content)`. -/
def TaskCodec.decode (content : List Char) : Option Json :=
  loads content

/-- The four acknowledgement policy flags of an AMQP task. -/
structure AmqpFlags where
  ack_later : Bool
  ack_always : Bool
  reject : Bool
  reject_requeue : Bool
  deriving Repr, DecidableEq

/-- amqp.py `Task.__init__` (lines 100-107): the four validity checks,
each raising `ValueError`; on success the flags are stored. -/
def Task.init (ack_later ack_always reject reject_requeue : Bool) :
    Except PyErr AmqpFlags :=
  if ack_always && reject then .error .valueError
  else if !ack_later && reject then .error .valueError
  else if ack_always && !ack_later then .error .valueError
  else if reject_requeue && !reject then .error .valueError
  else .ok ⟨ack_later, ack_always, reject, reject_requeue⟩

/-- Observable events of `exec_task` on one delivered message: the
callable running (with its outcome) and the broker-visible terminal
actions. -/
inductive Ev where
  | run (ok : Bool)
  | ack
  | reject (requeue : Bool)
  deriving Repr, DecidableEq

/-- amqp.py `Oxalis.exec_task` (lines 281-295): ack on entry unless
`ack_later`; run the callable; on failure reject (with
`reject_requeue`) or ack (`ack_always`) and re-raise; on success ack
when `ack_later`.  Returns the ordered event trace and whether the
exception propagates. -/
def Oxalis.exec_task (t : AmqpFlags) (ok : Bool) : List Ev × Bool :=
  let pre : List Ev := if !t.ack_later then [Ev.ack] else []
  if ok then
    (pre ++ [Ev.run true] ++ (if t.ack_later then [Ev.ack] else []), false)
  else
    (pre ++ [Ev.run false] ++
      (if t.reject then [Ev.reject t.reject_requeue]
       else if t.ack_always && t.ack_later then [Ev.ack] else []), true)

/-- The broker-visible terminal actions in an event trace. -/
def dispositions (evs : List Ev) : List Ev :=
  evs.filter fun e =>
    match e with
    | Ev.run _ => false
    | _ => true

/-- base.py `Oxalis.register_task` (lines 196-199): raise `ValueError`
on a duplicate name, else insert at the end (dict insertion order).
Returns the registry after the call together with the raised error, if
any. -/
def Oxalis.register_task {α : Type} (tasks : List (JStr × α)) (name : JStr) (t : α) :
    List (JStr × α) × Option PyErr :=
  if (tasks.lookup name).isSome then (tasks, some PyErr.valueError)
  else (tasks ++ [(name, t)], none)

/-- An AMQP task descriptor: registry identity plus publish settings
and the mutable per-call `priority` / `headers` set by `config`. -/
structure AmqpTask where
  name : JStr
  flags : AmqpFlags
  exchange : JStr
  routing_key : JStr
  priority : Option Int
  headers : List (JStr × Json)

/-- The parts of the AMQP `Oxalis` runtime state the verified claims
touch: the registry, the declared topology lists and the `test` flag. -/
structure AmqpState where
  tasks : List (JStr × AmqpTask)
  queues : List JStr
  exchanges : List JStr
  bindings : List (JStr × JStr × JStr)
  test : Bool

/-- amqp.py `Oxalis.__init__` (lines 122-163): build the default
topology (queue, exchange and their binding), then raise `ValueError`
unless the pool is unbounded (`concurrency < 0`). -/
def Oxalis.init (concurrency : Int) (test : Bool) : Except PyErr AmqpState :=
  let st : AmqpState :=
    { tasks := []
      queues := ["oxalis_queue_default".data]
      exchanges := ["oxalis_exchange_default".data]
      bindings := [("oxalis_queue_default".data, "oxalis_exchange_default".data,
        "default".data)]
      test := test }
  if 0 ≤ concurrency then .error .valueError else .ok st

/-- amqp.py `Oxalis.register(...)`'s inner `wrapped(func)` (lines
235-250): construct the task (validating its flags), insert it into
the registry, then append its exchange to the declared exchanges.  An
exception leaves the state unchanged. -/
def Oxalis.register (st : AmqpState) (name exchange rkey : JStr)
    (ack_later ack_always reject reject_requeue : Bool) : AmqpState × Option PyErr :=
  match Task.init ack_later ack_always reject reject_requeue with
  | .error e => (st, some e)
  | .ok fl =>
    let t : AmqpTask := ⟨name, fl, exchange, rkey, none, []⟩
    match Oxalis.register_task st.tasks name t with
    | (_, some e) => (st, some e)
    | (ts, none) => ({ st with tasks := ts, exchanges := st.exchanges ++ [exchange] }, none)

/-- Python tuple unpacking `task_name, task_args, task_kwargs = v` on a
decoded JSON value: a 3-element list, string or dict unpacks (a dict
yields its keys); other lengths raise `ValueError`, non-iterables
raise `TypeError`. -/
def unpack3 : Json → Except PyErr (Json × Json × Json)
  | .arr [a, b, c] => .ok (a, b, c)
  | .arr _ => .error .valueError
  | .str [a, b, c] => .ok (.str [a], .str [b], .str [c])
  | .str _ => .error .valueError
  | .obj [(k1, _), (k2, _), (k3, _)] => .ok (.str k1, .str k2, .str k3)
  | .obj _ => .error .valueError
  | _ => .error .typeError

/-- base.py `Oxalis.load_task` (lines 218-223): decode the payload
(`json.loads` failures raise a subclass of `ValueError`), unpack the
triple, and resolve the task name in the registry (a missing or
non-string name raises `ValueError`). -/
def Oxalis.load_task (tasks : List (JStr × AmqpTask)) (content : List Char) :
    Except PyErr (AmqpTask × Json × Json) :=
  match TaskCodec.decode content with
  | none => .error .valueError
  | some v =>
    match unpack3 v with
    | .error e => .error e
    | .ok (nameJ, args, kwargs) =>
      match nameJ with
      | .str n =>
        match tasks.lookup n with
        | some t => .ok (t, args, kwargs)
        | none => .error .valueError
      | _ => .error .valueError

/-- Outcome of one AMQP dispatch attempt: whether the work was handed
to the pool, the reject issued (with its requeue flag), whether a
warning was logged, and whether the exception propagates. -/
structure DispatchOut where
  spawned : Bool
  rejected : Option Bool
  warned : Bool
  raised : Bool
  deriving Repr, DecidableEq

/-- amqp.py `Oxalis.load_and_execute_task` (lines 297-311): load the
task and spawn it on the running pool; any failure before the spawn —
decode error, unknown task, closed pool — rejects the message with
`requeue=True`, logs a warning and re-raises.  The AMQP pool is
unbounded (enforced by `Oxalis.init`), so `spawn` itself does not
raise. -/
def Oxalis.load_and_execute_task (tasks : List (JStr × AmqpTask)) (poolRunning : Bool)
    (content : List Char) : DispatchOut :=
  match Oxalis.load_task tasks content with
  | .error _ => ⟨false, some true, true, true⟩
  | .ok _ =>
    if poolRunning then ⟨true, none, false, false⟩
    else ⟨false, some true, true, true⟩

/-- Externally visible effects of a `delay` call. -/
inductive Effect where
  | exec (name : JStr) (args : List Json) (kwargs : List (JStr × Json))
  | publish (exchange rkey : JStr) (body : List Char)
      (priority : Option Int) (headers : List (JStr × Json))

/-- amqp.py `Task.config` (lines 109-114): set the per-call priority
and headers on the task object. -/
def Task.config (t : AmqpTask) (priority : Option Int)
    (headers : List (JStr × Json)) : AmqpTask :=
  { t with priority := priority, headers := headers }

/-- amqp.py `Task.clean_config` (lines 116-118): reset the per-call
priority and headers. -/
def Task.clean_config (t : AmqpTask) : AmqpTask :=
  { t with priority := none, headers := [] }

/-- The registry after the task object registered under `name` was
mutated in place (Python dicts hold object references, so mutating the
registered task updates what the registry maps `name` to). -/
def updateTask (tasks : List (JStr × AmqpTask)) (name : JStr) (t : AmqpTask) :
    List (JStr × AmqpTask) :=
  tasks.map fun p => if p.1 = name then (p.1, t) else p

/-- base.py `Task.delay` (lines 57-62) specialized to the AMQP driver:
in test mode run the callable inline (`ok` is its outcome), otherwise
`Oxalis.send_task` (lines 194-212) publishes the encoded payload with
the task's current priority and headers, raising `ValueError` when the
task is not registered; `clean_config` runs only when the call
completes.  Returns the emitted effects and, unless an exception
propagates, the post-call state and task object. -/
def Task.delay (st : AmqpState) (t : AmqpTask) (ok : Bool) (args : List Json)
    (kwargs : List (JStr × Json)) :
    List Effect × Except PyErr (AmqpState × AmqpTask) :=
  if st.test then
    ([Effect.exec t.name args kwargs],
     if ok then
       let t2 := Task.clean_config t
       .ok ({ st with tasks := updateTask st.tasks t.name t2 }, t2)
     else .error .valueError)
  else
    if (st.tasks.lookup t.name).isSome then
      let t2 := Task.clean_config t
      ([Effect.publish t.exchange t.routing_key
          (TaskCodec.encode t.name args kwargs) t.priority t.headers],
       .ok ({ st with tasks := updateTask st.tasks t.name t2 }, t2))
    else ([], .error .valueError)

/-- Per-process worker state for the close handler: the `running`
flag, the `is_worker` flag, the close-signal counter and one
force-closed flag per pool. -/
structure WorkerState where
  running : Bool
  is_worker : Bool
  close_signal_count : Nat
  pools_forced : List Bool
  deriving Repr, DecidableEq

/-- Result of the close handler: the new state, whether the
message-loss warning was logged, and whether the process exited. -/
structure CloseOut where
  st : WorkerState
  warned : Bool
  exited : Bool
  deriving Repr, DecidableEq

/-- base.py `Oxalis.close_worker` (lines 187-194): set `running`
false; when forced, log the message-loss warning, force-close every
pool and exit the process. -/
def Oxalis.close_worker (st : WorkerState) (force : Bool) : CloseOut :=
  let st1 := { st with running := false }
  if force then
    ⟨{ st1 with pools_forced := st1.pools_forced.map fun _ => true }, true, true⟩
  else ⟨st1, false, false⟩

/-- base.py `Oxalis.close` (lines 239-244): a no-op unless this
process is a worker; otherwise increment the signal counter and close
the worker, forcing from the second signal on. -/
def Oxalis.close (st : WorkerState) : CloseOut :=
  if st.is_worker = false then ⟨st, false, false⟩
  else
    let st1 := { st with close_signal_count := st.close_signal_count + 1 }
    Oxalis.close_worker st1 (2 ≤ st1.close_signal_count)

/-- Python values relevant to the kafka consumer loop: `None` and
2-tuples. -/
inductive Py where
  | pynone
  | tuple2 (fst snd : Py)
  deriving Repr, DecidableEq

/-- base.py `Oxalis.exec_task` (lines 137-139) has no return
statement: it returns `None`. -/
def base_exec_task_ret : Py := Py.pynone

/-- base.py `Oxalis.load_and_execute_task` (lines 225-230) ends in an
expression statement, so it returns the value of nothing — `None`.
(kafka.py's `Oxalis` overrides neither this nor `exec_task`.) -/
def base_load_and_execute_task_ret : Py := base_exec_task_ret

/-- base.py `Oxalis.on_message_receive` (lines 232-237): returns
`load_and_execute_task`'s value, or falls through to `None` after
logging when it raised. -/
def on_message_receive_ret (raised : Bool) : Py :=
  if raised then Py.pynone else base_load_and_execute_task_ret

/-- Python `_, spowned = v`: unpacking `None` raises `TypeError`. -/
def unpack2 : Py → Except PyErr (Py × Py)
  | Py.tuple2 a b => .ok (a, b)
  | Py.pynone => .error .typeError

/-- Python truthiness of the modelled values. -/
def truthy : Py → Bool
  | Py.pynone => false
  | Py.tuple2 _ _ => true

/-- kafka.py `Oxalis._start_consumer` loop body (lines 117-124) after
one record is polled: `_, spowned = await self.on_message_receive(...)`
and then `consumer.commit()` when `spowned` is truthy and automatic
offset commit is off.  Returns whether a commit was issued, or the
exception that escapes the loop (only `asyncio.TimeoutError` is
suppressed there). -/
def consumerStep (raised : Bool) (autoCommitOff : Bool) : Except PyErr Bool :=
  match unpack2 (on_message_receive_ret raised) with
  | .error e => .error e
  | .ok p => .ok (truthy p.2 && autoCommitOff)

/-- Fixed descriptor used as the concrete registered task in the
`delay` witnesses. -/
def wTask : AmqpTask :=
  ⟨"t".data, ⟨true, false, true, false⟩, "e".data, "r".data, none, []⟩

/-- Fixed test-mode runtime state holding exactly `wTask`, used in the
`delay` witnesses. -/
def wState : AmqpState := ⟨[("t".data, wTask)], [], [], [], true⟩

/-! ## Theorems -/

/-- The keyword literals written out as character lists. -/
theorem nullLit_eq : ("null".data : List Char) = 'n' :: 'u' :: 'l' :: 'l' :: [] := rfl

/-- See `nullLit_eq`. -/
theorem trueLit_eq : ("true".data : List Char) = 't' :: 'r' :: 'u' :: 'e' :: [] := rfl

/-- See `nullLit_eq`. -/
theorem falseLit_eq : ("false".data : List Char) = 'f' :: 'a' :: 'l' :: 's' :: 'e' :: [] := rfl

theorem ne_of_isDigit {c : Char} {d : Char} (h : c.isDigit = true)
    (hd : d.isDigit = false) : c ≠ d := by
  intro hc
  rw [hc, hd] at h
  exact Bool.false_ne_true h

theorem digitChar_isDigit {m : Nat} (h : m < 10) :
    (Nat.digitChar m).isDigit = true := by
  interval_cases m <;> decide

theorem digitChar_toNat {m : Nat} (h : m < 10) :
    (Nat.digitChar m).toNat = 48 + m := by
  interval_cases m <;> decide

theorem hexVal_digitChar {m : Nat} (h : m < 16) :
    hexVal (Nat.digitChar m) = some m := by
  interval_cases m <;> decide

theorem isDigit_not_ws {c : Char} (h : c.isDigit = true) : isWs c = false := by
  simp only [isWs, Bool.or_eq_false_iff, decide_eq_false_iff_not]
  exact ⟨⟨⟨ne_of_isDigit h (by decide), ne_of_isDigit h (by decide)⟩,
    ne_of_isDigit h (by decide)⟩, ne_of_isDigit h (by decide)⟩

theorem foldl_natToDigitsGo (fuel : Nat) :
    ∀ n acc, n ≤ fuel →
      List.foldl (fun a c => 10 * a + (c.toNat - 48)) 0 (natToDigitsGo fuel n acc) =
      List.foldl (fun a c => 10 * a + (c.toNat - 48)) n acc := by
  induction fuel with
  | zero =>
    intro n acc hn
    interval_cases n
    simp [natToDigitsGo]
  | succ fuel ih =>
    intro n acc hn
    by_cases h0 : n = 0
    · subst h0; simp [natToDigitsGo]
    · rw [natToDigitsGo, if_neg h0]
      rw [ih (n / 10) _ (by omega)]
      simp only [List.foldl_cons]
      congr 1
      rw [digitChar_toNat (Nat.mod_lt n (by omega))]
      omega

theorem digitsToNat_natToDigits (n : Nat) : digitsToNat (natToDigits n) = n := by
  by_cases h0 : n = 0
  · subst h0; decide
  · rw [natToDigits, if_neg h0, digitsToNat, foldl_natToDigitsGo n n [] (Nat.le_refl n)]
    simp

theorem natToDigitsGo_all_digits (fuel : Nat) :
    ∀ n acc, (∀ c ∈ acc, c.isDigit = true) →
      ∀ c ∈ natToDigitsGo fuel n acc, c.isDigit = true := by
  induction fuel with
  | zero => intro n acc hacc; simpa [natToDigitsGo] using hacc
  | succ fuel ih =>
    intro n acc hacc c hc
    by_cases h0 : n = 0
    · subst h0; rw [natToDigitsGo, if_pos rfl] at hc; exact hacc c hc
    · rw [natToDigitsGo, if_neg h0] at hc
      refine ih (n / 10) _ ?_ c hc
      intro x hx
      rcases List.mem_cons.mp hx with h | h
      · subst h; exact digitChar_isDigit (Nat.mod_lt n (by omega))
      · exact hacc x h

theorem natToDigits_all_digits (n : Nat) :
    ∀ c ∈ natToDigits n, c.isDigit = true := by
  by_cases h0 : n = 0
  · subst h0; intro c hc; simp [natToDigits] at hc; subst hc; decide
  · rw [natToDigits, if_neg h0]
    exact natToDigitsGo_all_digits n n [] (by intro c hc; simp at hc)

theorem natToDigitsGo_length (fuel : Nat) :
    ∀ n acc, acc.length ≤ (natToDigitsGo fuel n acc).length := by
  induction fuel with
  | zero => intro n acc; simp [natToDigitsGo]
  | succ fuel ih =>
    intro n acc
    by_cases h0 : n = 0
    · subst h0; simp [natToDigitsGo]
    · rw [natToDigitsGo, if_neg h0]
      calc acc.length ≤ (Nat.digitChar (n % 10) :: acc).length := by simp
        _ ≤ _ := ih (n / 10) _

theorem natToDigits_ne_nil (n : Nat) : natToDigits n ≠ [] := by
  by_cases h0 : n = 0
  · subst h0; simp [natToDigits]
  · rw [natToDigits, if_neg h0]
    match hn : n, h0 with
    | m + 1, _ =>
      rw [natToDigitsGo, if_neg (by omega)]
      have := natToDigitsGo_length m ((m + 1) / 10) [Nat.digitChar ((m + 1) % 10)]
      intro hnil
      rw [hnil] at this
      simp at this

/-- Expose the decimal representation as a cons of digit characters. -/
theorem natToDigits_cons (n : Nat) :
    ∃ c t, natToDigits n = c :: t ∧ c.isDigit = true := by
  match hd : natToDigits n with
  | [] => exact absurd hd (natToDigits_ne_nil n)
  | c :: t =>
    refine ⟨c, t, rfl, ?_⟩
    have := natToDigits_all_digits n
    rw [hd] at this
    exact this c (List.mem_cons_self c t)

theorem takeWhile_append_all {p : Char → Bool} :
    ∀ {xs ys : List Char}, (∀ c ∈ xs, p c = true) →
      (xs ++ ys).takeWhile p = xs ++ ys.takeWhile p := by
  intro xs
  induction xs with
  | nil => intro ys _; simp
  | cons x xs ih =>
    intro ys h
    have hx : p x = true := h x (List.mem_cons_self x xs)
    simp only [List.cons_append, List.takeWhile_cons, hx, if_true]
    rw [ih (fun c hc => h c (List.mem_cons_of_mem x hc))]

theorem dropWhile_append_all {p : Char → Bool} :
    ∀ {xs ys : List Char}, (∀ c ∈ xs, p c = true) →
      (xs ++ ys).dropWhile p = ys.dropWhile p := by
  intro xs
  induction xs with
  | nil => intro ys _; simp
  | cons x xs ih =>
    intro ys h
    have hx : p x = true := h x (List.mem_cons_self x xs)
    simp only [List.cons_append, List.dropWhile_cons, hx, if_true]
    exact ih (fun c hc => h c (List.mem_cons_of_mem x hc))

theorem delim_no_digit {s : List Char} (h : delim s = true) :
    s.takeWhile Char.isDigit = [] ∧ s.dropWhile Char.isDigit = s := by
  match s with
  | [] => exact ⟨rfl, rfl⟩
  | c :: t =>
    simp only [delim, Bool.or_eq_true, decide_eq_true_eq] at h
    have hc : c.isDigit = false := by
      rcases h with (h | h) | h <;> rw [h] <;> decide
    constructor
    · simp [List.takeWhile_cons, hc]
    · simp [List.dropWhile_cons, hc]

theorem parseNatNum_print {n : Nat} {rest : List Char} (hrest : delim rest = true) :
    parseNatNum (natToDigits n ++ rest) = some (n, rest) := by
  have hall := natToDigits_all_digits n
  rw [parseNatNum]
  rw [takeWhile_append_all hall, dropWhile_append_all hall,
    (delim_no_digit hrest).1, (delim_no_digit hrest).2, List.append_nil]
  rw [if_neg (by simp [List.isEmpty_iff, natToDigits_ne_nil n])]
  rw [digitsToNat_natToDigits]

theorem parseNum_print {n : Int} {rest : List Char} (hrest : delim rest = true) :
    parseNum (intToDigits n ++ rest) = some (Json.num n, rest) := by
  by_cases hneg : n < 0
  · rw [intToDigits, if_pos hneg]
    rw [List.cons_append, parseNum, if_pos rfl, parseNatNum_print hrest]
    have h1 : (-(n.natAbs : Int)) = n := by omega
    simp only [Option.map_some', h1]
  · rw [intToDigits, if_neg hneg]
    obtain ⟨c, t, hct, hcd⟩ := natToDigits_cons n.toNat
    rw [hct, List.cons_append, parseNum,
      if_neg (ne_of_isDigit hcd (by decide)), ← List.cons_append, ← hct,
      parseNatNum_print hrest]
    have h1 : ((n.toNat : Nat) : Int) = n := by omega
    simp only [Option.map_some', h1]

theorem parseStr_escStr : ∀ (s : JStr) (rest : List Char),
    parseStr (escStr s ++ '"' :: rest) = some (s, rest) := by
  intro s
  induction s with
  | nil => intro rest; rw [escStr, List.nil_append, parseStr, if_pos rfl]
  | cons c s ih =>
    intro rest
    rw [escStr]
    by_cases hq : c = '"'
    · subst hq
      rw [escChar, if_pos rfl]
      simp only [List.cons_append, List.nil_append]
      rw [parseStr]
      simp only [if_neg (show ¬('\\' : Char) = '"' by decide), if_pos rfl]
      rw [parseEsc, show unescape1 '"' = some '"' by decide, ih rest]
      rfl
    · by_cases hb : c = '\\'
      · subst hb
        rw [escChar, if_neg (by decide), if_pos rfl]
        simp only [List.cons_append, List.nil_append]
        rw [parseStr]
        simp only [if_neg (show ¬('\\' : Char) = '"' by decide), if_pos rfl]
        rw [parseEsc, show unescape1 '\\' = some '\\' by decide, ih rest]
        rfl
      · by_cases hctl : c.toNat < 32
        · rw [escChar, if_neg hq, if_neg hb, if_pos hctl]
          simp only [List.cons_append, List.nil_append]
          rw [parseStr]
          simp only [if_neg (show ¬('\\' : Char) = '"' by decide), if_pos rfl]
          rw [parseEsc, show unescape1 'u' = none by decide]
          simp only [if_pos rfl]
          rw [parseHex, show hexVal '0' = some 0 by decide,
            hexVal_digitChar (show c.toNat / 16 < 16 by omega),
            hexVal_digitChar (show c.toNat % 16 < 16 by omega)]
          rw [ih rest]
          have hv : 0 * 4096 + 0 * 256 + c.toNat / 16 * 16 + c.toNat % 16 = c.toNat := by
            omega
          simp only [Option.map_some', hv, Char.ofNat_toNat, if_true]
        · rw [escChar, if_neg hq, if_neg hb, if_neg hctl]
          simp only [List.cons_append, List.nil_append]
          rw [parseStr]
          simp only [if_neg hq, if_neg hb]
          rw [ih rest]
          rfl

theorem jsize_pos (v : Json) : 1 ≤ jsize v := by
  cases v <;> simp only [jsize] <;> omega

/-- Every serialized value starts with a character that is not
whitespace and not one of the closing tokens. -/
theorem printJson_head (v : Json) :
    ∃ c t, printJson v = c :: t ∧ isWs c = false ∧
      c ≠ ']' ∧ c ≠ '}' ∧ c ≠ ',' := by
  cases v with
  | null => exact ⟨'n', _, rfl, by decide, by decide, by decide, by decide⟩
  | bool b =>
    cases b
    · exact ⟨'f', _, rfl, by decide, by decide, by decide, by decide⟩
    · exact ⟨'t', _, rfl, by decide, by decide, by decide, by decide⟩
  | num n =>
    by_cases hneg : n < 0
    · refine ⟨'-', natToDigits n.natAbs, ?_, by decide, by decide, by decide, by decide⟩
      rw [printJson, intToDigits, if_pos hneg]
    · obtain ⟨c, t, hct, hcd⟩ := natToDigits_cons n.toNat
      refine ⟨c, t, ?_, isDigit_not_ws hcd, ne_of_isDigit hcd (by decide),
        ne_of_isDigit hcd (by decide), ne_of_isDigit hcd (by decide)⟩
      rw [printJson, intToDigits, if_neg hneg, hct]
  | str s => exact ⟨'"', _, rfl, by decide, by decide, by decide, by decide⟩
  | arr xs => exact ⟨'[', _, rfl, by decide, by decide, by decide, by decide⟩
  | obj fs => exact ⟨'{', _, rfl, by decide, by decide, by decide, by decide⟩

theorem dropWs_cons_of_not_ws {c : Char} {s : List Char} (h : isWs c = false) :
    dropWs (c :: s) = c :: s := by
  simp [dropWs, List.dropWhile_cons, h]

theorem parseVal_cons_ws {c : Char} (h : isWs c = true) :
    ∀ fuel s, parseVal fuel (c :: s) = parseVal fuel s := by
  intro fuel s
  cases fuel with
  | zero => rfl
  | succ fuel =>
    rw [parseVal, parseVal]
    have : dropWs (c :: s) = dropWs s := by
      simp [dropWs, List.dropWhile_cons, h]
    rw [this]

theorem parseElems_cons_ws {c : Char} (h : isWs c = true) :
    ∀ fuel s, parseElems fuel (c :: s) = parseElems fuel s := by
  intro fuel s
  cases fuel with
  | zero => rfl
  | succ fuel =>
    rw [parseElems, parseElems, parseVal_cons_ws h]

theorem parseMembers_cons_ws {c : Char} (h : isWs c = true) :
    ∀ fuel s, parseMembers fuel (c :: s) = parseMembers fuel s := by
  intro fuel s
  cases fuel with
  | zero => rfl
  | succ fuel =>
    rw [parseMembers, parseMembers]
    have : dropWs (c :: s) = dropWs s := by
      simp [dropWs, List.dropWhile_cons, h]
    rw [this]

/-- Serialized non-empty array elements start like a serialized value. -/
theorem printList_head (x : Json) (xs : List Json) :
    ∃ c t, printList (x :: xs) = c :: t ∧ isWs c = false ∧
      c ≠ ']' ∧ c ≠ '}' ∧ c ≠ ',' := by
  obtain ⟨c, t, hct, hws, h1, h2, h3⟩ := printJson_head x
  cases xs with
  | nil => exact ⟨c, t, by rw [printList, hct], hws, h1, h2, h3⟩
  | cons y ys =>
    refine ⟨c, t ++ ',' :: ' ' :: printList (y :: ys), ?_, hws, h1, h2, h3⟩
    rw [printList, hct, List.cons_append]

/-- Serialized non-empty object members start with a double quote. -/
theorem printFields_head (k : JStr) (v : Json) (fs : List (JStr × Json)) :
    ∃ t, printFields ((k, v) :: fs) = '"' :: t := by
  cases fs with
  | nil => exact ⟨_, by rw [printFields, printStr, List.cons_append]⟩
  | cons m fs' =>
    match m with
    | (k2, v2) =>
      exact ⟨_, by rw [printFields, printStr, List.cons_append, List.cons_append]⟩

/-- Round trip of the serializer and parser, proved for all three
mutually defined parsers at once by induction on fuel. -/
theorem parse_print_rec (fuel : Nat) :
    (∀ v rest, jsize v ≤ fuel → delim rest = true →
      parseVal fuel (printJson v ++ rest) = some (v, rest)) ∧
    (∀ x xs rest, jsizeL (x :: xs) ≤ fuel →
      parseElems fuel (printList (x :: xs) ++ ']' :: rest) = some (x :: xs, rest)) ∧
    (∀ k v fs rest, jsizeM ((k, v) :: fs) ≤ fuel →
      parseMembers fuel (printFields ((k, v) :: fs) ++ '}' :: rest) =
        some ((k, v) :: fs, rest)) := by
  induction fuel with
  | zero =>
    refine ⟨fun v rest hf _ => absurd hf (by have := jsize_pos v; omega),
      fun x xs rest hf => absurd hf (by simp only [jsizeL]; omega),
      fun k v fs rest hf => absurd hf (by simp only [jsizeM]; omega)⟩
  | succ f ih =>
    obtain ⟨ihV, ihE, ihM⟩ := ih
    refine ⟨?_, ?_, ?_⟩
    · intro v rest hf hrest
      cases v with
      | null =>
        rw [printJson, nullLit_eq]
        simp only [List.cons_append, List.nil_append]
        rw [parseVal, dropWs_cons_of_not_ws (by decide)]
        simp
      | bool b =>
        cases b
        · rw [printJson, falseLit_eq]
          simp only [List.cons_append, List.nil_append]
          rw [parseVal, dropWs_cons_of_not_ws (by decide)]
          simp
        · rw [printJson, trueLit_eq]
          simp only [List.cons_append, List.nil_append]
          rw [parseVal, dropWs_cons_of_not_ws (by decide)]
          simp
      | num n =>
        rw [printJson]
        obtain ⟨c, t, hct, hws, h1, h2, h3⟩ := printJson_head (.num n)
        rw [printJson] at hct
        rw [hct, List.cons_append, parseVal, dropWs_cons_of_not_ws hws]
        have hd : c.isDigit = true ∨ c = '-' := by
          by_cases hneg : n < 0
          · rw [intToDigits, if_pos hneg] at hct
            right
            obtain ⟨hc, -⟩ := List.cons_eq_cons.mp hct
            exact hc.symm
          · left
            obtain ⟨c', t', hct', hcd'⟩ := natToDigits_cons n.toNat
            rw [intToDigits, if_neg hneg, hct'] at hct
            obtain ⟨hc, -⟩ := List.cons_eq_cons.mp hct
            exact hc ▸ hcd'
        have hne : ∀ d : Char, d.isDigit = false → d ≠ '-' → c ≠ d := by
          intro d hdd hdm
          rcases hd with h | h
          · exact ne_of_isDigit h hdd
          · rw [h]
            exact fun heq => hdm heq.symm
        simp only [if_neg (hne 'n' (by decide) (by decide)),
          if_neg (hne 't' (by decide) (by decide)),
          if_neg (hne 'f' (by decide) (by decide)),
          if_neg (hne '"' (by decide) (by decide)),
          if_neg (hne '[' (by decide) (by decide)),
          if_neg (hne '{' (by decide) (by decide))]
        rw [← List.cons_append, ← hct, parseNum_print hrest]
      | str s =>
        rw [printJson, printStr]
        simp only [List.cons_append, List.append_assoc, List.cons_append, List.nil_append]
        rw [parseVal, dropWs_cons_of_not_ws (by decide)]
        simp only [if_neg (show ('"' : Char) ≠ 'n' by decide),
          if_neg (show ('"' : Char) ≠ 't' by decide),
          if_neg (show ('"' : Char) ≠ 'f' by decide), if_pos rfl]
        rw [parseStr_escStr]
        rfl
      | arr xs =>
        cases xs with
        | nil =>
          rw [printJson, printList]
          simp only [List.cons_append, List.nil_append]
          rw [parseVal, dropWs_cons_of_not_ws (by decide)]
          simp only [Char.reduceEq, if_false, if_true]
          rw [dropWs_cons_of_not_ws (by decide)]
          simp [headIs]
        | cons x xs =>
          rw [printJson]
          simp only [List.cons_append, List.append_assoc, List.cons_append, List.nil_append]
          rw [parseVal, dropWs_cons_of_not_ws (by decide)]
          simp only [Char.reduceEq, if_false, if_true]
          obtain ⟨c, t, hct, hws, hc1, hc2, hc3⟩ := printList_head x xs
          rw [hct, List.cons_append, dropWs_cons_of_not_ws hws]
          have hhead : headIs (c :: (t ++ ']' :: rest)) ']' = false := by
            simp [headIs, hc1]
          rw [hhead]
          simp only [Bool.false_eq_true, if_false]
          rw [← List.cons_append, ← hct,
            ihE x xs rest (by simp only [jsize, jsizeL] at hf ⊢; omega)]
          rfl
      | obj fs =>
        cases fs with
        | nil =>
          rw [printJson, printFields]
          simp only [List.cons_append, List.nil_append]
          rw [parseVal, dropWs_cons_of_not_ws (by decide)]
          simp only [Char.reduceEq, if_false, if_true]
          rw [dropWs_cons_of_not_ws (by decide)]
          simp [headIs]
        | cons m fs =>
          match m with
          | (k, v) =>
            rw [printJson]
            simp only [List.cons_append, List.append_assoc, List.cons_append, List.nil_append]
            rw [parseVal, dropWs_cons_of_not_ws (by decide)]
            simp only [Char.reduceEq, if_false, if_true]
            obtain ⟨t, hct⟩ := printFields_head k v fs
            rw [hct, List.cons_append, dropWs_cons_of_not_ws (by decide)]
            have hhead : headIs ('"' :: (t ++ '}' :: rest)) '}' = false := by
              simp [headIs]
            rw [hhead]
            simp only [Bool.false_eq_true, if_false]
            rw [← List.cons_append, ← hct,
              ihM k v fs rest (by simp only [jsize, jsizeM] at hf ⊢; omega)]
            rfl
    · intro x xs rest hf
      rw [parseElems]
      cases xs with
      | nil =>
        rw [printList,
          ihV x (']' :: rest) (by simp only [jsizeL] at hf; omega) (by rfl)]
        simp only [Option.bind_eq_bind, Option.some_bind]
        rw [dropWs_cons_of_not_ws (by decide)]
        simp only []
      | cons y ys =>
        rw [printList]
        simp only [List.append_assoc, List.cons_append]
        rw [ihV x _ (by simp only [jsizeL] at hf ⊢; omega) (by rfl)]
        simp only [Option.bind_eq_bind, Option.some_bind]
        rw [dropWs_cons_of_not_ws (by decide)]
        simp only []
        rw [parseElems_cons_ws (by decide),
          ihE y ys rest (by simp only [jsizeL] at hf ⊢; omega)]
        rfl
    · intro k v fs rest hf
      rw [parseMembers]
      cases fs with
      | nil =>
        rw [printFields, printStr]
        simp only [List.cons_append, List.append_assoc, List.nil_append]
        rw [dropWs_cons_of_not_ws (by decide)]
        simp only []
        rw [parseStr_escStr]
        simp only [Option.bind_eq_bind, Option.some_bind]
        rw [dropWs_cons_of_not_ws (by decide)]
        simp only []
        rw [parseVal_cons_ws (by decide),
          ihV v ('}' :: rest) (by simp only [jsizeM] at hf; omega) (by rfl)]
        simp only [Option.bind_eq_bind, Option.some_bind]
        rw [dropWs_cons_of_not_ws (by decide)]
        simp only []
      | cons m fs =>
        match m with
        | (k2, v2) =>
          rw [printFields, printStr]
          simp only [List.cons_append, List.append_assoc, List.nil_append]
          rw [dropWs_cons_of_not_ws (by decide)]
          simp only []
          rw [parseStr_escStr]
          simp only [Option.bind_eq_bind, Option.some_bind]
          rw [dropWs_cons_of_not_ws (by decide)]
          simp only []
          rw [parseVal_cons_ws (by decide),
            ihV v _ (by simp only [jsizeM] at hf ⊢; omega) (by rfl)]
          simp only [Option.bind_eq_bind, Option.some_bind]
          rw [dropWs_cons_of_not_ws (by decide)]
          simp only []
          rw [parseMembers_cons_ws (by decide),
            ihM k2 v2 fs rest (by simp only [jsizeM] at hf ⊢; omega)]
          rfl

theorem intToDigits_ne_nil (n : Int) : intToDigits n ≠ [] := by
  rw [intToDigits]
  by_cases hneg : n < 0
  · simp [if_pos hneg]
  · simp only [if_neg hneg]
    exact natToDigits_ne_nil n.toNat

theorem jsize_le_aux : ∀ N : Nat,
    (∀ v : Json, sizeOf v ≤ N → jsize v ≤ (printJson v).length) ∧
    (∀ (x : Json) (xs : List Json), sizeOf (x :: xs : List Json) ≤ N →
      jsizeL (x :: xs) ≤ (printList (x :: xs)).length + 1) ∧
    (∀ (k : JStr) (v : Json) (fs : List (JStr × Json)),
      sizeOf ((k, v) :: fs : List (JStr × Json)) ≤ N →
      jsizeM ((k, v) :: fs) ≤ (printFields ((k, v) :: fs)).length + 1) := by
  intro N
  induction N with
  | zero =>
    refine ⟨fun v h => absurd h ?_, fun x xs h => absurd h ?_, fun k v fs h => absurd h ?_⟩
    · cases v <;> simp
    · simp
    · simp
  | succ N ih =>
    obtain ⟨ihA, ihB, ihC⟩ := ih
    refine ⟨?_, ?_, ?_⟩
    · intro v hs
      cases v with
      | null => simp [jsize, printJson, nullLit_eq]
      | bool b => cases b <;> simp [jsize, printJson, trueLit_eq, falseLit_eq]
      | num n =>
        have := intToDigits_ne_nil n
        have hlen : 1 ≤ (intToDigits n).length := by
          cases h : intToDigits n with
          | nil => exact absurd h this
          | cons c t => simp
        simp only [jsize, printJson]
        omega
      | str s => simp [jsize, printJson, printStr]
      | arr xs =>
        cases xs with
        | nil => simp [jsize, jsizeL, printJson, printList]
        | cons x xs =>
          have hx : sizeOf (x :: xs : List Json) ≤ N := by
            simp at hs ⊢
            omega
          have := ihB x xs hx
          simp only [jsize, printJson, List.length_cons, List.length_append]
          simp only [List.length_cons, List.length_nil] at this ⊢
          omega
      | obj fs =>
        cases fs with
        | nil => simp [jsize, jsizeM, printJson, printFields]
        | cons m fs =>
          match m with
          | (k, v) =>
            have hx : sizeOf ((k, v) :: fs : List (JStr × Json)) ≤ N := by
              simp at hs ⊢
              omega
            have := ihC k v fs hx
            simp only [jsize, printJson, List.length_cons, List.length_append]
            simp only [List.length_cons, List.length_nil] at this ⊢
            omega
    · intro x xs hs
      cases xs with
      | nil =>
        have hx : sizeOf x ≤ N := by simp at hs; omega
        have := ihA x hx
        simp only [jsizeL, printList]
        omega
      | cons y ys =>
        have hx : sizeOf x ≤ N := by simp at hs; omega
        have hy : sizeOf (y :: ys : List Json) ≤ N := by simp at hs ⊢; omega
        have h1 := ihA x hx
        have h2 := ihB y ys hy
        simp only [jsizeL, printList, List.length_append, List.length_cons] at h2 ⊢
        omega
    · intro k v fs hs
      cases fs with
      | nil =>
        have hv : sizeOf v ≤ N := by simp at hs; omega
        have := ihA v hv
        simp only [jsizeM, printFields, printStr, List.length_append, List.length_cons]
        omega
      | cons m fs =>
        match m with
        | (k2, v2) =>
          have hv : sizeOf v ≤ N := by simp at hs; omega
          have hm : sizeOf ((k2, v2) :: fs : List (JStr × Json)) ≤ N := by
            simp at hs ⊢
            omega
          have h1 := ihA v hv
          have h2 := ihC k2 v2 fs hm
          simp only [jsizeM, printFields, printStr, List.length_append,
            List.length_cons] at h2 ⊢
          omega

theorem jsize_le_length (v : Json) : jsize v ≤ (printJson v).length :=
  (jsize_le_aux (sizeOf v)).1 v (Nat.le_refl _)

/-- `json.loads` inverts `json.dumps` on every value of the embedded
JSON fragment. -/
theorem loads_printJson (v : Json) : loads (printJson v) = some v := by
  rw [loads]
  have hp := (parse_print_rec ((printJson v).length + 1)).1 v []
    (by have := jsize_le_length v; omega) (by rfl)
  rw [List.append_nil] at hp
  rw [hp]
  rfl

theorem updateTask_keys (tasks : List (JStr × AmqpTask)) (name : JStr) (t : AmqpTask) :
    (updateTask tasks name t).map Prod.fst = tasks.map Prod.fst := by
  induction tasks with
  | nil => rfl
  | cons p ps ih =>
    simp only [updateTask, List.map_cons] at ih ⊢
    by_cases h : p.1 = name
    · simp [h, ih]
    · simp [h, ih]

theorem updateTask_id (tasks : List (JStr × AmqpTask)) (name : JStr) (t : AmqpTask)
    (h : ∀ p ∈ tasks, p.1 = name → p.2 = t) : updateTask tasks name t = tasks := by
  induction tasks with
  | nil => rfl
  | cons p ps ih =>
    simp only [updateTask, List.map_cons]
    have hps : updateTask ps name t = ps :=
      ih fun q hq => h q (List.mem_cons_of_mem p hq)
    simp only [updateTask] at hps
    rw [hps]
    by_cases hp : p.1 = name
    · rw [if_pos hp, ← h p (List.mem_cons_self p ps) hp]
    · rw [if_neg hp]

theorem clean_config_id (t : AmqpTask) (h1 : t.priority = none) (h2 : t.headers = []) :
    Task.clean_config t = t := by
  cases t
  simp only [Task.clean_config] at *
  simp [h1, h2]

/-- C5: for every task name, args sequence and string-keyed kwargs
mapping representable in the codec's textual format, decoding the
bytes produced by encoding `(n, args, kwargs)` yields the
`[n, args, kwargs]` triple again — the codec round-trip is the
identity on representable values. -/
theorem taskCodec_roundtrip (name : JStr) (args : List Json)
    (kwargs : List (JStr × Json)) :
    TaskCodec.decode (TaskCodec.encode name args kwargs) =
      some (Json.arr [Json.str name, Json.arr args, Json.obj kwargs]) := by
  rw [TaskCodec.encode, TaskCodec.decode, loads_printJson]

/-- C1: for every delivered AMQP message handled by `exec_task` for a
constructible (valid-flag) task, the terminal disposition is exactly
the one of the five-row policy table: `ack_later=false` acks on entry
before the callable and issues nothing afterwards; on success with
`ack_later=true` a single ack follows the run; on failure the task
rejects once with `requeue=reject_requeue` when `reject`, acks when
`ack_always`, and otherwise issues nothing, the error propagating in
all failure rows. -/
theorem exec_task_state_machine (a b c d ok : Bool) (t : AmqpFlags)
    (h : Task.init a b c d = .ok t) :
    (dispositions (Oxalis.exec_task t ok).1).length ≤ 1 ∧
    (t.ack_later = false → Oxalis.exec_task t ok = ([Ev.ack, Ev.run ok], !ok)) ∧
    (t.ack_later = true → ok = true →
      Oxalis.exec_task t ok = ([Ev.run true, Ev.ack], false)) ∧
    (t.ack_later = true → ok = false → t.reject = true →
      Oxalis.exec_task t ok = ([Ev.run false, Ev.reject t.reject_requeue], true)) ∧
    (t.ack_later = true → ok = false → t.reject = false → t.ack_always = true →
      Oxalis.exec_task t ok = ([Ev.run false, Ev.ack], true)) ∧
    (t.ack_later = true → ok = false → t.reject = false → t.ack_always = false →
      Oxalis.exec_task t ok = ([Ev.run false], true)) := by
  cases a <;> cases b <;> cases c <;> cases d <;> simp [Task.init] at h <;>
    (subst h; cases ok <;> simp [Oxalis.exec_task, dispositions])

/-- C1 witness: a valid task (`ack_later=true, reject=true`) whose
callable fails is rejected once with `requeue=false` and the error
propagates. -/
theorem exec_task_state_machine_witness :
    Oxalis.exec_task ⟨true, false, true, false⟩ false =
      ([Ev.run false, Ev.reject false], true) :=
  (exec_task_state_machine true false true false false _ rfl).2.2.2.1 rfl rfl rfl

/-- C4: AMQP task construction with any of the four invalid flag
combinations raises an error and leaves the runtime state — in
particular the task registry — unchanged. -/
theorem register_invalid_flags (st : AmqpState) (name exchange rkey : JStr)
    (a b c d : Bool)
    (h : (b = true ∧ c = true) ∨ (c = true ∧ a = false) ∨
      (b = true ∧ a = false) ∨ (d = true ∧ c = false)) :
    Oxalis.register st name exchange rkey a b c d = (st, some PyErr.valueError) := by
  cases a <;> cases b <;> cases c <;> cases d <;>
    first
      | exact absurd h (by decide)
      | rfl

/-- C4 witness: `ack_always=true` with `reject=true` is rejected at
construction and the state is untouched. -/
theorem register_invalid_flags_witness :
    Oxalis.register ⟨[], [], [], [], false⟩ "t".data "e".data "r".data true true true false =
      (⟨[], [], [], [], false⟩, some PyErr.valueError) :=
  register_invalid_flags ⟨[], [], [], [], false⟩ "t".data "e".data "r".data
    true true true false (Or.inl ⟨rfl, rfl⟩)

/-- C6: registering a task whose name is already a registry key raises
a duplicate-task error and returns the registry unchanged — the
existing descriptor is still the registered one and no entry is added
or removed. -/
theorem register_task_duplicate {α : Type} (tasks : List (JStr × α)) (name : JStr)
    (t : α) (h : (tasks.lookup name).isSome = true) :
    Oxalis.register_task tasks name t = (tasks, some PyErr.valueError) := by
  rw [Oxalis.register_task, if_pos h]

/-- C6 witness: re-registering the name `t` fails and keeps the first
descriptor. -/
theorem register_task_duplicate_witness :
    Oxalis.register_task [("t".data, 0)] "t".data 1 =
      ([("t".data, 0)], some PyErr.valueError) :=
  register_task_duplicate [("t".data, 0)] "t".data 1 (by decide)

/-- C10: constructing the AMQP runtime raises a configuration error
exactly when the pool's concurrency is non-negative; only an unbounded
pool (`concurrency < 0`) is accepted. -/
theorem amqp_init_requires_unbounded_pool (concurrency : Int) (test : Bool) :
    (0 ≤ concurrency → Oxalis.init concurrency test = .error .valueError) ∧
    (concurrency < 0 → Oxalis.init concurrency test =
      .ok { tasks := []
            queues := ["oxalis_queue_default".data]
            exchanges := ["oxalis_exchange_default".data]
            bindings := [("oxalis_queue_default".data, "oxalis_exchange_default".data,
              "default".data)]
            test := test }) := by
  constructor
  · intro h
    rw [Oxalis.init, if_pos h]
  · intro h
    rw [Oxalis.init, if_neg (by omega)]

/-- C10 witness: a bounded pool (`concurrency = 4`) is refused, the
default unbounded pool (`concurrency = -1`) is accepted. -/
theorem amqp_init_requires_unbounded_pool_witness :
    Oxalis.init 4 false = .error .valueError ∧
    Oxalis.init (-1) false =
      .ok { tasks := []
            queues := ["oxalis_queue_default".data]
            exchanges := ["oxalis_exchange_default".data]
            bindings := [("oxalis_queue_default".data, "oxalis_exchange_default".data,
              "default".data)]
            test := false } :=
  ⟨(amqp_init_requires_unbounded_pool 4 false).1 (by decide),
   (amqp_init_requires_unbounded_pool (-1) false).2 (by decide)⟩

/-- C2: whenever AMQP dispatch fails before execution starts — the
payload does not decode, the unpacked name is not in the registry, or
the pool is no longer running — the message is rejected with
`requeue=true`, a warning is logged, nothing is spawned and the error
propagates. -/
theorem dispatch_failure_rejects_requeue (tasks : List (JStr × AmqpTask))
    (poolRunning : Bool) (content : List Char)
    (h : (∃ e, Oxalis.load_task tasks content = .error e) ∨ poolRunning = false) :
    Oxalis.load_and_execute_task tasks poolRunning content =
      { spawned := false, rejected := some true, warned := true, raised := true } := by
  rcases h with ⟨e, he⟩ | hp
  · rw [Oxalis.load_and_execute_task, he]
  · rw [Oxalis.load_and_execute_task]
    cases hl : Oxalis.load_task tasks content with
    | error e => rfl
    | ok x =>
      rw [hp]
      rfl

/-- C2 witness: an empty payload fails to decode and is rejected with
`requeue=true` and a warning. -/
theorem dispatch_failure_rejects_requeue_witness :
    Oxalis.load_and_execute_task [] true [] =
      { spawned := false, rejected := some true, warned := true, raised := true } :=
  dispatch_failure_rejects_requeue [] true [] (Or.inl ⟨PyErr.valueError, rfl⟩)

/-- C3 (code bug evidence): the kafka consumer loop body unpacks the
return value of `on_message_receive` as a pair, but that method always
returns `None` (base.py's `load_and_execute_task` has no return
value), so every polled record raises `TypeError` before the commit
statement — no offset is ever committed and the consumer activity
dies, whatever the dispatch outcome and auto-commit setting. -/
theorem kafka_consumer_commit_bug (raised autoCommitOff : Bool) :
    consumerStep raised autoCommitOff = .error .typeError := by
  cases raised <;> rfl

/-- C7: in a `test=true` runtime, `delay` executes the task's callable
inline (one `exec` effect, no publish); the declared topology lists
are untouched, the registry keys are untouched, and when the task's
per-call config is clean (its steady state) the whole runtime state is
exactly unchanged. -/
theorem delay_test_mode_inline (st : AmqpState) (t : AmqpTask) (ok : Bool)
    (args : List Json) (kwargs : List (JStr × Json)) (htest : st.test = true) :
    (Task.delay st t ok args kwargs).1 = [Effect.exec t.name args kwargs] ∧
    (∀ e rk body pr hd, Effect.publish e rk body pr hd ∉ (Task.delay st t ok args kwargs).1) ∧
    (∀ st2 t2, (Task.delay st t ok args kwargs).2 = .ok (st2, t2) →
      st2.queues = st.queues ∧ st2.exchanges = st.exchanges ∧
      st2.bindings = st.bindings ∧ st2.tasks.map Prod.fst = st.tasks.map Prod.fst ∧
      (t.priority = none → t.headers = [] →
        (∀ p ∈ st.tasks, p.1 = t.name → p.2 = t) → st2 = st)) := by
  rw [Task.delay, if_pos htest]
  refine ⟨rfl, ?_, ?_⟩
  · intro e rk body pr hd hmem
    simp at hmem
  · intro st2 t2 h2
    cases ok with
    | false => exact absurd h2 (by simp)
    | true =>
      rw [if_pos rfl] at h2
      injection h2 with h3
      injection h3 with ha hb
      subst ha
      refine ⟨rfl, rfl, rfl, updateTask_keys st.tasks t.name _, ?_⟩
      intro hp hh huniq
      rw [clean_config_id t hp hh, updateTask_id st.tasks t.name t huniq]

/-- C7 witness: in the test-mode state, `delay` on the registered task
emits exactly the inline execution effect. -/
theorem delay_test_mode_inline_witness :
    (Task.delay wState wTask true [] []).1 = [Effect.exec "t".data [] []] :=
  (delay_test_mode_inline wState wTask true [] [] rfl).1

/-- C8: whenever a `delay` call completes (the publish path or the
test-mode inline path), the resulting task object's `priority` is
`None` and its `headers` mapping is empty, and any publish emitted by
that call carried the pre-call priority and headers — so per-call
config is used by at most the one publish that follows it. -/
theorem delay_clears_config (st : AmqpState) (t : AmqpTask) (ok : Bool)
    (args : List Json) (kwargs : List (JStr × Json)) (st2 : AmqpState) (t2 : AmqpTask)
    (h : (Task.delay st t ok args kwargs).2 = .ok (st2, t2)) :
    t2.priority = none ∧ t2.headers = [] ∧
    (∀ e rk body pr hd, Effect.publish e rk body pr hd ∈ (Task.delay st t ok args kwargs).1 →
      pr = t.priority ∧ hd = t.headers) := by
  rw [Task.delay] at h ⊢
  by_cases htest : st.test = true
  · rw [if_pos htest] at h ⊢
    cases ok with
    | false => exact absurd h (by simp)
    | true =>
      rw [if_pos rfl] at h
      injection h with h3
      injection h3 with ha hb
      subst hb
      refine ⟨rfl, rfl, ?_⟩
      intro e rk body pr hd hmem
      simp at hmem
  · rw [if_neg htest] at h ⊢
    by_cases hreg : (st.tasks.lookup t.name).isSome = true
    · rw [if_pos hreg] at h ⊢
      injection h with h3
      injection h3 with ha hb
      subst hb
      refine ⟨rfl, rfl, ?_⟩
      intro e rk body pr hd hmem
      simp only [List.mem_singleton, Effect.publish.injEq] at hmem
      exact ⟨hmem.2.2.2.1, hmem.2.2.2.2⟩
    · rw [if_neg hreg] at h
      exact absurd h (by simp)

/-- C8 witness: after configuring priority 5 and one header and
delaying in the test-mode state, the call completes with the
registered task back in its clean state. -/
theorem delay_clears_config_witness :
    (Task.delay wState (Task.config wTask (some 5) [("h".data, Json.num 1)]) true [] []).2 =
      .ok (wState, wTask) ∧ wTask.priority = none ∧ wTask.headers = [] :=
  ⟨rfl,
   (delay_clears_config wState (Task.config wTask (some 5) [("h".data, Json.num 1)])
     true [] [] wState wTask rfl).1,
   (delay_clears_config wState (Task.config wTask (some 5) [("h".data, Json.num 1)])
     true [] [] wState wTask rfl).2.1⟩

/-- C9: the first close signal on a worker flips `running` to false,
increments the counter and neither force-closes pools, warns nor
exits; any later signal force-closes every pool, logs the message-loss
warning and exits; on a non-worker process the handler changes
nothing. -/
theorem close_signal_semantics (st : WorkerState) :
    (st.is_worker = true → st.close_signal_count = 0 →
      Oxalis.close st =
        ⟨{ st with running := false, close_signal_count := 1 }, false, false⟩) ∧
    (st.is_worker = true → 1 ≤ st.close_signal_count →
      (Oxalis.close st).st.running = false ∧
      (Oxalis.close st).st.pools_forced = st.pools_forced.map (fun _ => true) ∧
      (Oxalis.close st).warned = true ∧ (Oxalis.close st).exited = true) ∧
    (st.is_worker = false → Oxalis.close st = ⟨st, false, false⟩) := by
  refine ⟨?_, ?_, ?_⟩
  · intro hw hc
    rw [Oxalis.close, if_neg (by rw [hw]; simp), Oxalis.close_worker, hc,
      if_neg (by simp)]
  · intro hw hc
    rw [Oxalis.close, if_neg (by rw [hw]; simp), Oxalis.close_worker,
      if_pos (by simp only [decide_eq_true_eq]; omega)]
    exact ⟨rfl, rfl, rfl, rfl⟩
  · intro hw
    rw [Oxalis.close, if_pos hw]

/-- C9 witness: concrete first signal, second signal and non-worker
cases. -/
theorem close_signal_semantics_witness :
    Oxalis.close ⟨true, true, 0, [false, false]⟩ =
      ⟨⟨false, true, 1, [false, false]⟩, false, false⟩ ∧
    (Oxalis.close ⟨false, true, 1, [false, false]⟩).st.pools_forced = [true, true] ∧
    (Oxalis.close ⟨false, true, 1, [false, false]⟩).exited = true ∧
    Oxalis.close ⟨true, false, 0, [false]⟩ = ⟨⟨true, false, 0, [false]⟩, false, false⟩ :=
  ⟨(close_signal_semantics ⟨true, true, 0, [false, false]⟩).1 rfl rfl,
   ((close_signal_semantics ⟨false, true, 1, [false, false]⟩).2.1 rfl (by decide)).2.1,
   ((close_signal_semantics ⟨false, true, 1, [false, false]⟩).2.1 rfl (by decide)).2.2.2,
   (close_signal_semantics ⟨true, false, 0, [false]⟩).2.2 rfl⟩
